import Mathlib

/-!
# Verification of the PoliticalAlignmentCaseStudy data-transformation core

Shallow embedding of the reproducible-logic core of the notebooks
`02_polviews.ipynb` and `04_worldview.ipynb`: the Recoder
(`Series.replace` with a dict), the Distribution Estimator
(`Pmf.from_seq`, `values`), the Grouped Aggregator
(`groupby("year")["polviews"].mean()`), the Cross-Tabulator
(`pd.crosstab`, plain and `normalize="index"`), the Smoother
(`make_lowess`) and the notebook function `plot_by_polviews`.

Machine floats of the source are embedded as exact rationals (`ℚ`), the
pandas missing marker `NaN` as `none : Option _`.
-/

namespace PACS

/-- A cell value of the GSS table: integer-coded responses are rationals
(pandas stores them as floats), recoded labels are strings. -/
inductive GVal where
  | num (q : ℚ)
  | str (s : String)
deriving DecidableEq

/-- A pandas `Series` (one table column): one optional value per row,
`none` embedding the `NaN` missing marker. -/
abbrev Column := List (Option GVal)

/-- One value under `pandas.Series.replace` with a dict `m`:
a value that is a key of `m` is substituted, any other value — including
one absent from `m` — is kept unchanged, and `NaN` stays `NaN`
(no key of the notebooks' dicts is `NaN`). -/
def recodeVal (m : List (GVal × GVal)) (v : Option GVal) : Option GVal :=
  v.map (fun x => (m.lookup x).getD x)

/-- `series.replace(d)` as used at `polviews7 = gss["polviews"].replace(d7)`
(02_polviews) and `gss['polviews3'] = gss['polviews'].replace(d_polviews)`
(04_worldview): elementwise `recodeVal`. -/
def replace (m : List (GVal × GVal)) (c : Column) : Column :=
  c.map (recodeVal m)

/-- The dict `d7` of 02_polviews cell "recode the 7 point scale with words". -/
def d7 : List (GVal × GVal) :=
  [(GVal.num 1, GVal.str "Extremely liberal"),
   (GVal.num 2, GVal.str "Liberal"),
   (GVal.num 3, GVal.str "Slightly liberal"),
   (GVal.num 4, GVal.str "Moderate"),
   (GVal.num 5, GVal.str "Slightly conservative"),
   (GVal.num 6, GVal.str "Conservative"),
   (GVal.num 7, GVal.str "Extremely conservative")]

/-- The dict `d_polviews` of 04_worldview. -/
def d_polviews : List (GVal × GVal) :=
  [(GVal.num 1, GVal.str "Liberal"),
   (GVal.num 2, GVal.str "Liberal"),
   (GVal.num 3, GVal.str "Liberal"),
   (GVal.num 4, GVal.str "Moderate"),
   (GVal.num 5, GVal.str "Conservative"),
   (GVal.num 6, GVal.str "Conservative"),
   (GVal.num 7, GVal.str "Conservative")]

/-- Sorted list of the distinct elements of `l`, ascending: the index of a
pandas `value_counts().sort_index()`, `groupby` (with its default
`sort=True`) or `crosstab` result. -/
def sortDedup {α : Type} [LinearOrder α] [DecidableEq α] (l : List α) : List α :=
  List.insertionSort (· ≤ ·) l.dedup

/-- Number of occurrences of `v` in `l`. -/
def cnt {α : Type} [DecidableEq α] (v : α) (l : List α) : ℕ :=
  (l.filter (fun x => x = v)).length

/-- `values(series)` of 02_polviews: `series.value_counts().sort_index()` —
drop missing values, count each distinct value, index sorted ascending. -/
def values (series : List (Option ℚ)) : List (ℚ × ℕ) :=
  let vals := series.filterMap id
  (sortDedup vals).map (fun v => (v, cnt v vals))

namespace Pmf

/-- `empiricaldist.Pmf.from_seq(seq)`: drop missing values, count each
distinct value, sort by value, normalize by the number of non-missing
values.  An empty or all-missing sequence gives the empty mapping. -/
def from_seq (seq : List (Option ℚ)) : List (ℚ × ℚ) :=
  let vals := seq.filterMap id
  (sortDedup vals).map (fun v => (v, (cnt v vals : ℚ) / (vals.length : ℚ)))

end Pmf

/-! ## Generic list lemmas used throughout -/

theorem sum_map_add {α : Type} (l : List α) (f g : α → ℕ) :
    (l.map (fun a => f a + g a)).sum = (l.map f).sum + (l.map g).sum := by
  induction l with
  | nil => simp
  | cons a t ih => simp [ih]; omega

theorem sum_map_ite_zero {α : Type} [DecidableEq α] (keys : List α) (x : α)
    (hx : x ∉ keys) : (keys.map (fun k => if x = k then 1 else 0)).sum = 0 := by
  induction keys with
  | nil => simp
  | cons k t ih =>
      have hxk : x ≠ k := fun h => hx (h ▸ List.mem_cons_self k t)
      have hxt : x ∉ t := fun h => hx (List.mem_cons_of_mem k h)
      simp [hxk, ih hxt]

theorem sum_map_ite_one {α : Type} [DecidableEq α] (keys : List α) (x : α)
    (hnd : keys.Nodup) (hx : x ∈ keys) :
    (keys.map (fun k => if x = k then 1 else 0)).sum = 1 := by
  induction keys with
  | nil => exact absurd hx (List.not_mem_nil x)
  | cons k t ih =>
      rcases List.mem_cons.mp hx with h | h
      · subst h
        have hxt : x ∉ t := (List.nodup_cons.mp hnd).1
        simp [sum_map_ite_zero t x hxt]
      · have hkx : x ≠ k := by
          intro he
          exact (List.nodup_cons.mp hnd).1 (he ▸ h)
        simp [hkx, ih (List.nodup_cons.mp hnd).2 h]

/-- Partition lemma: filtering a list by each key of a duplicate-free list of
keys covering all of its elements partitions the list. -/
theorem sum_filter_length_partition {α K : Type} [DecidableEq K]
    (keys : List K) (f : α → K) (l : List α)
    (hnd : keys.Nodup) (hcov : ∀ a ∈ l, f a ∈ keys) :
    (keys.map (fun k => (l.filter (fun a => f a = k)).length)).sum = l.length := by
  induction l with
  | nil => simp
  | cons a t ih =>
      have hat : ∀ b ∈ t, f b ∈ keys := fun b hb => hcov b (List.mem_cons_of_mem a hb)
      have hfa : f a ∈ keys := hcov a (List.mem_cons_self a t)
      have hsplit : ∀ k : K,
          ((a :: t).filter (fun b => f b = k)).length
            = (if f a = k then 1 else 0) + (t.filter (fun b => f b = k)).length := by
        intro k
        by_cases h : f a = k <;> simp [List.filter_cons, h, Nat.add_comm]
      calc (keys.map (fun k => ((a :: t).filter (fun b => f b = k)).length)).sum
          = (keys.map (fun k =>
              (if f a = k then 1 else 0) + (t.filter (fun b => f b = k)).length)).sum := by
            exact congrArg List.sum (List.map_congr_left (fun k _ => hsplit k))
        _ = (keys.map (fun k => if f a = k then 1 else 0)).sum
              + (keys.map (fun k => (t.filter (fun b => f b = k)).length)).sum :=
            sum_map_add keys _ _
        _ = 1 + t.length := by rw [sum_map_ite_one keys (f a) hnd hfa, ih hat]
        _ = (a :: t).length := by simp [add_comm]

theorem sortDedup_sorted {α : Type} [LinearOrder α] [DecidableEq α] (l : List α) :
    List.Sorted (· ≤ ·) (sortDedup l) :=
  List.sorted_insertionSort _ _

theorem sortDedup_perm {α : Type} [LinearOrder α] [DecidableEq α] (l : List α) :
    (sortDedup l).Perm l.dedup :=
  List.perm_insertionSort _ _

theorem sortDedup_nodup {α : Type} [LinearOrder α] [DecidableEq α] (l : List α) :
    (sortDedup l).Nodup :=
  ((sortDedup_perm l).symm.nodup_iff).mp (List.nodup_dedup l)

theorem mem_sortDedup {α : Type} [LinearOrder α] [DecidableEq α] {a : α} {l : List α} :
    a ∈ sortDedup l ↔ a ∈ l := by
  rw [(sortDedup_perm l).mem_iff, List.mem_dedup]

theorem sortDedup_sorted_lt {α : Type} [LinearOrder α] [DecidableEq α] (l : List α) :
    List.Sorted (· < ·) (sortDedup l) := by
  have h := (sortDedup_sorted l).and (sortDedup_nodup l)
  exact h.imp (fun hp => lt_of_le_of_ne hp.1 hp.2)

theorem sortDedup_perm_eq {α : Type} [LinearOrder α] [DecidableEq α]
    {l l' : List α} (h : l.Perm l') : sortDedup l = sortDedup l' :=
  List.eq_of_perm_of_sorted
    ((sortDedup_perm l).trans (h.dedup.trans (sortDedup_perm l').symm))
    (sortDedup_sorted l) (sortDedup_sorted l')

/-! ## Grouped Aggregator

`gss.groupby("year")["polviews"].mean()` (02_polviews): partition the rows
by key, take the chosen column, and average its non-missing values per
group; a group with no non-missing value gets the missing marker.  The key
type is generic (`year : ℤ` in the notebooks, `(year, polviews3)` in the
pivot-table variant). -/

/-- The non-missing observations of a keyed column, in row order. -/
def nonMissing {K : Type} (rows : List (K × Option ℚ)) : List (K × ℚ) :=
  rows.filterMap (fun r => r.2.map (fun v => (r.1, v)))

/-- The group keys, sorted ascending: pandas `groupby` with its default
`sort=True`. -/
def groupKeys {K : Type} [LinearOrder K] [DecidableEq K]
    (rows : List (K × Option ℚ)) : List K :=
  sortDedup (rows.map Prod.fst)

/-- The non-missing values of the group of `y`, in row order: what the
pandas `mean`/`std` aggregates are computed from (`NaN` dropped). -/
def groupVals {K : Type} [DecidableEq K] (rows : List (K × Option ℚ)) (y : K) : List ℚ :=
  (rows.filter (fun r => r.1 = y)).filterMap Prod.snd

/-- Mean of the group of `y`; the all-missing group yields `none`
(pandas: `NaN`), never zero. -/
def groupMean {K : Type} [DecidableEq K] (rows : List (K × Option ℚ)) (y : K) : Option ℚ :=
  let vs := groupVals rows y
  if vs = [] then none else some (vs.sum / (vs.length : ℚ))

/-- `rows.groupby(key)[col].mean()`: one `(key, mean)` entry per distinct
key, keys ascending. -/
def groupbyMean {K : Type} [LinearOrder K] [DecidableEq K]
    (rows : List (K × Option ℚ)) : List (K × Option ℚ) :=
  (groupKeys rows).map (fun y => (y, groupMean rows y))

/-- Modelled from the spec: the standard-deviation aggregate of §4.3 — the
02_polviews cells that compute the per-year standard deviation are left
blank (exercise cells), so the aggregate is not under `src/`.  Pandas
`groupby(...)[col].std()` drops missing values and uses the unbiased
`n − 1` denominator, yielding `NaN` for a group with fewer than two
non-missing values.  The exact square of that standard deviation is
embedded (the standard deviation itself is its real square root; which
values enter the aggregate is carried entirely by this square). -/
def groupStdSq {K : Type} [DecidableEq K]
    (rows : List (K × Option ℚ)) (y : K) : Option ℚ :=
  let vs := groupVals rows y
  if vs.length < 2 then none
  else some (((vs.map (fun v => (v - vs.sum / (vs.length : ℚ)) ^ 2)).sum)
    / ((vs.length : ℚ) - 1))

/-- Prepending an observation whose value is missing leaves every group's
value list unchanged: missing values never enter an aggregate. -/
theorem groupVals_cons_none {K : Type} [DecidableEq K]
    (z y : K) (rows : List (K × Option ℚ)) :
    groupVals ((z, (none : Option ℚ)) :: rows) y = groupVals rows y := by
  by_cases h : z = y <;> simp [groupVals, List.filter_cons, h]

/-- Maximum of a list of rationals (`0` for the empty list, never consulted
on that case). -/
def listMax : List ℚ → ℚ
  | [] => 0
  | [a] => a
  | a :: b :: t => max a (listMax (b :: t))

/-- Minimum of a list of rationals. -/
def listMin : List ℚ → ℚ
  | [] => 0
  | [a] => a
  | a :: b :: t => min a (listMin (b :: t))

theorem le_listMax {l : List ℚ} {v : ℚ} (hv : v ∈ l) : v ≤ listMax l := by
  induction l with
  | nil => exact absurd hv (List.not_mem_nil v)
  | cons a t ih =>
      cases t with
      | nil =>
          rcases List.mem_cons.mp hv with h | h
          · simp [listMax, h]
          · exact absurd h (List.not_mem_nil v)
      | cons b s =>
          rcases List.mem_cons.mp hv with h | h
          · simp [listMax, h]
          · exact le_trans (ih h) (le_max_right _ _)

theorem listMin_le {l : List ℚ} {v : ℚ} (hv : v ∈ l) : listMin l ≤ v := by
  induction l with
  | nil => exact absurd hv (List.not_mem_nil v)
  | cons a t ih =>
      cases t with
      | nil =>
          rcases List.mem_cons.mp hv with h | h
          · simp [listMin, h]
          · exact absurd h (List.not_mem_nil v)
      | cons b s =>
          rcases List.mem_cons.mp hv with h | h
          · simp [listMin, h]
          · exact le_trans (min_le_right _ _) (ih h)

theorem sum_le_length_mul {l : List ℚ} {M : ℚ} (h : ∀ v ∈ l, v ≤ M) :
    l.sum ≤ (l.length : ℚ) * M := by
  induction l with
  | nil => simp
  | cons a t ih =>
      have ha : a ≤ M := h a (List.mem_cons_self a t)
      have ht : t.sum ≤ (t.length : ℚ) * M :=
        ih (fun v hv => h v (List.mem_cons_of_mem a hv))
      simp only [List.sum_cons, List.length_cons]
      push_cast
      nlinarith

theorem length_mul_le_sum {l : List ℚ} {M : ℚ} (h : ∀ v ∈ l, M ≤ v) :
    (l.length : ℚ) * M ≤ l.sum := by
  induction l with
  | nil => simp
  | cons a t ih =>
      have ha : M ≤ a := h a (List.mem_cons_self a t)
      have ht : (t.length : ℚ) * M ≤ t.sum :=
        ih (fun v hv => h v (List.mem_cons_of_mem a hv))
      simp only [List.sum_cons, List.length_cons]
      push_cast
      nlinarith

/-- The mean of a nonempty list lies within its min and max. -/
theorem mean_between {l : List ℚ} (hne : l ≠ []) :
    listMin l ≤ l.sum / (l.length : ℚ) ∧ l.sum / (l.length : ℚ) ≤ listMax l := by
  have hlen : 0 < (l.length : ℚ) := by
    have : 0 < l.length := List.length_pos.mpr hne
    exact_mod_cast this
  constructor
  · rw [le_div_iff₀ hlen]
    have := length_mul_le_sum (l := l) (M := listMin l) (fun v hv => listMin_le hv)
    linarith [this]
  · rw [div_le_iff₀ hlen]
    have := sum_le_length_mul (l := l) (M := listMax l) (fun v hv => le_listMax hv)
    linarith [this]

/-- The size of the group of `y` equals the number of non-missing
observations keyed `y`. -/
theorem groupVals_length {K : Type} [DecidableEq K]
    (rows : List (K × Option ℚ)) (y : K) :
    (groupVals rows y).length = ((nonMissing rows).filter (fun r => r.1 = y)).length := by
  induction rows with
  | nil => simp [groupVals, nonMissing]
  | cons r t ih =>
      obtain ⟨z, ov⟩ := r
      cases ov with
      | none =>
          by_cases hz : z = y <;>
            simp [groupVals, nonMissing, List.filter_cons, hz] at ih ⊢ <;>
            exact ih
      | some v =>
          by_cases hz : z = y <;>
            simp [groupVals, nonMissing, List.filter_cons, hz] at ih ⊢ <;>
            exact ih

/-- The non-missing observations are exactly the non-missing column
entries, paired with their keys. -/
theorem nonMissing_length {K : Type} (rows : List (K × Option ℚ)) :
    (nonMissing rows).length = (rows.filterMap Prod.snd).length := by
  induction rows with
  | nil => rfl
  | cons r t ih =>
      obtain ⟨z, ov⟩ := r
      cases ov <;> simp [nonMissing, List.filterMap_cons] at ih ⊢ <;> omega

/-- The per-group non-missing counts sum to the total non-missing count. -/
theorem sum_group_counts {K : Type} [LinearOrder K] [DecidableEq K]
    (rows : List (K × Option ℚ)) :
    ((groupKeys rows).map (fun y => (groupVals rows y).length)).sum
      = (rows.filterMap Prod.snd).length := by
  have hcov : ∀ a ∈ nonMissing rows, a.1 ∈ groupKeys rows := by
    intro a ha
    rcases List.mem_filterMap.mp ha with ⟨r, hr, he⟩
    cases hov : r.2 with
    | none => rw [hov] at he; exact absurd he (by simp)
    | some v =>
        rw [hov] at he
        have : a.1 = r.1 := by
          have h2 : a = (r.1, v) := by
            simpa using he.symm
          rw [h2]
        rw [this]
        exact mem_sortDedup.mpr (List.mem_map_of_mem Prod.fst hr)
  calc ((groupKeys rows).map (fun y => (groupVals rows y).length)).sum
      = ((groupKeys rows).map
          (fun y => ((nonMissing rows).filter (fun r => r.1 = y)).length)).sum := by
        exact congrArg List.sum
          (List.map_congr_left (fun y _ => groupVals_length rows y))
    _ = (nonMissing rows).length :=
        sum_filter_length_partition (groupKeys rows) Prod.fst (nonMissing rows)
          (sortDedup_nodup _) hcov
    _ = (rows.filterMap Prod.snd).length := nonMissing_length rows

/-! ## Cross-Tabulator

`pd.crosstab(year, column)` and `pd.crosstab(year, column, normalize="index")`
(02_polviews).  `crosstab` drops every aligned pair with a missing value in
either column, then counts co-occurrences over the sorted distinct values
of each column.  `normalize="index"` divides each row by its row sum;
float division `0 / 0` is `NaN`, embedded as `none`. -/

/-- The aligned pairs that survive pandas' `dropna` inside `crosstab`:
both components non-missing. -/
def keptPairs {A B : Type} (ys : List (Option A)) (vs : List (Option B)) :
    List (A × B) :=
  (ys.zip vs).filterMap (fun p => p.1.bind (fun a => p.2.map (fun b => (a, b))))

/-- Row labels of the crosstab: sorted distinct first components. -/
def rowKeys {A B : Type} [LinearOrder A] [DecidableEq A]
    (ys : List (Option A)) (vs : List (Option B)) : List A :=
  sortDedup ((keptPairs ys vs).map Prod.fst)

/-- Column labels of the crosstab: sorted distinct second components. -/
def colKeys {A B : Type} [LinearOrder B] [DecidableEq B]
    (ys : List (Option A)) (vs : List (Option B)) : List B :=
  sortDedup ((keptPairs ys vs).map Prod.snd)

/-- One cell: the number of kept pairs equal to `(r, c)`. -/
def cellCount {A B : Type} [DecidableEq A] [DecidableEq B]
    (kept : List (A × B)) (r : A) (c : B) : ℕ :=
  ((kept.filter (fun p => p.1 = r)).filter (fun p => p.2 = c)).length

/-- `pd.crosstab(year, column)`: the count table, one row per row label. -/
def crosstab {A B : Type} [LinearOrder A] [LinearOrder B]
    [DecidableEq A] [DecidableEq B]
    (ys : List (Option A)) (vs : List (Option B)) : List (A × List ℕ) :=
  (rowKeys ys vs).map (fun r =>
    (r, (colKeys ys vs).map (fun c => cellCount (keptPairs ys vs) r c)))

/-- Row normalization: divide a row of counts by its row sum; a row with
sum `0` becomes a row of missing markers (float `0 / 0` is `NaN`), not a
division failure. -/
def normalizeRow (counts : List ℚ) : List (Option ℚ) :=
  if counts.sum = 0 then counts.map (fun _ => none)
  else counts.map (fun n => some (n / counts.sum))

/-- `pd.crosstab(year, column, normalize="index")`. -/
def crosstabNorm {A B : Type} [LinearOrder A] [LinearOrder B]
    [DecidableEq A] [DecidableEq B]
    (ys : List (Option A)) (vs : List (Option B)) : List (A × List (Option ℚ)) :=
  (rowKeys ys vs).map (fun r =>
    (r, normalizeRow ((colKeys ys vs).map
          (fun c => (cellCount (keptPairs ys vs) r c : ℚ)))))

theorem sum_map_natCast {α : Type} (l : List α) (f : α → ℕ) :
    (l.map (fun a => (f a : ℚ))).sum = (((l.map f).sum : ℕ) : ℚ) := by
  induction l with
  | nil => simp
  | cons a t ih => simp [ih]

theorem sum_map_div (l : List ℚ) (s : ℚ) :
    (l.map (fun n => n / s)).sum = l.sum / s := by
  induction l with
  | nil => simp
  | cons a t ih => simp [ih, add_div]

theorem filterMap_id_map_some (l : List ℚ) (f : ℚ → ℚ) :
    (l.map (fun n => some (f n))).filterMap id = l.map f := by
  induction l with
  | nil => rfl
  | cons a t ih => simp [ih]

/-- A crosstab row sum counts exactly the kept pairs with that row label. -/
theorem crosstab_row_total {A B : Type} [LinearOrder A] [LinearOrder B]
    [DecidableEq A] [DecidableEq B]
    (ys : List (Option A)) (vs : List (Option B)) (r : A) :
    ((colKeys ys vs).map (fun c => cellCount (keptPairs ys vs) r c)).sum
      = ((keptPairs ys vs).filter (fun p => p.1 = r)).length := by
  have hcov : ∀ p ∈ (keptPairs ys vs).filter (fun p => p.1 = r),
      p.2 ∈ colKeys ys vs := by
    intro p hp
    have hmem : p ∈ keptPairs ys vs := (List.mem_filter.mp hp).1
    exact mem_sortDedup.mpr (List.mem_map_of_mem Prod.snd hmem)
  exact sum_filter_length_partition (colKeys ys vs) Prod.snd
    ((keptPairs ys vs).filter (fun p => p.1 = r)) (sortDedup_nodup _) hcov

/-! ## Smoother

`make_lowess(series)` (02_polviews and 04_worldview) adapts a pandas
series to `(x, y)` arrays and delegates the smoothing itself to the
external `statsmodels` `lowess` routine, which is not part of this
repository.  The local-regression core below is therefore modelled from
the spec (§4.4): sort by `x`, and at each data point fit a locally
weighted linear regression with a tricube weight kernel over the `k`
nearest neighbours in `x` (bandwidth fraction ≈ 2/3); a degenerate fit
falls back to the point's own value, and fewer than 2 distinct x-values
is the explicit hard error. -/

/-- Modelled from the spec: the hard error `InsufficientDataError` of
§4.4/§7 — "smoothing requested with fewer than 2 distinct x-values";
the error type does not appear in the notebooks. -/
inductive InsufficientDataError where
  | insufficientData
deriving DecidableEq

/-- Nominal window size: roughly two-thirds of the points, at least 2. -/
def kval (n : ℕ) : ℕ := max 2 (2 * n / 3)

/-- Distance to the `k`-th nearest neighbour of `x0` among the data
x-values: the local bandwidth. -/
def dmaxAt (pts : List (ℚ × ℚ)) (x0 : ℚ) : ℚ :=
  (List.insertionSort (· ≤ ·) (pts.map (fun p => |p.1 - x0|))).getD
    (kval pts.length - 1) 0

/-- Tricube weight of a point at distance `|p.1 - x0|` for bandwidth `dm`;
points beyond the bandwidth get weight 0, and a zero bandwidth keeps only
the points at `x0` itself. -/
def tricubeWeight (x0 dm : ℚ) (p : ℚ × ℚ) : ℚ :=
  if dm = 0 then (if p.1 = x0 then 1 else 0)
  else if |p.1 - x0| ≤ dm then (1 - (|p.1 - x0| / dm) ^ 3) ^ 3 else 0

/-- Modelled from the spec: one locally weighted linear least-squares fit,
evaluated at `x0`, with weight function `wf`; the solution of the weighted
normal equations.  A degenerate system (all weight on one x-value) falls
back to the evaluation point's own y-value `y0` — the asymmetric-window
edge case "must not crash". -/
def fitWLS (pts : List (ℚ × ℚ)) (wf : ℚ × ℚ → ℚ) (x0 y0 : ℚ) : ℚ :=
  let S0 := (pts.map (fun p => wf p)).sum
  let S1 := (pts.map (fun p => wf p * p.1)).sum
  let S2 := (pts.map (fun p => wf p * p.1 * p.1)).sum
  let T0 := (pts.map (fun p => wf p * p.2)).sum
  let T1 := (pts.map (fun p => wf p * p.1 * p.2)).sum
  let det := S0 * S2 - S1 * S1
  if det = 0 then y0
  else ((S0 * T1 - S1 * T0) * x0 + (S2 * T0 - S1 * T1)) / det

/-- The smoothed value at data point `(x0, y0)`. -/
def fitAt (pts : List (ℚ × ℚ)) (x0 y0 : ℚ) : ℚ :=
  fitWLS pts (tricubeWeight x0 (dmaxAt pts x0)) x0 y0

/-- `make_lowess(series)`: the series as `(x, y)` pairs, smoothed at each
data x (the `lowess` call sorts by exog first); the result is a series
indexed by the sorted x-values.  Fewer than 2 distinct x-values is the
explicit `InsufficientDataError` (modelled from the spec, see above). -/
def make_lowess (series : List (ℚ × ℚ)) :
    Except InsufficientDataError (List (ℚ × ℚ)) :=
  let pts := List.insertionSort (fun p q : ℚ × ℚ => p.1 ≤ q.1) series
  if ((pts.map Prod.fst).dedup.length < 2) then
    Except.error InsufficientDataError.insufficientData
  else
    Except.ok (pts.map (fun p => (p.1, fitAt pts p.1 p.2)))

/-- Weighted sums of collinear points collapse onto the line. -/
theorem sum_weighted_collinear (a b : ℚ) (pts : List (ℚ × ℚ)) (wf : ℚ × ℚ → ℚ)
    (hlin : ∀ p ∈ pts, p.2 = a * p.1 + b) :
    (pts.map (fun p => wf p * p.2)).sum
      = a * (pts.map (fun p => wf p * p.1)).sum + b * (pts.map (fun p => wf p)).sum := by
  induction pts with
  | nil => simp
  | cons p t ih =>
      have hp : p.2 = a * p.1 + b := hlin p (List.mem_cons_self p t)
      have ht := ih (fun q hq => hlin q (List.mem_cons_of_mem p hq))
      simp only [List.map_cons, List.sum_cons, ht, hp]
      ring

/-- A weighted linear fit through exactly collinear points reproduces the
line, whatever the weights. -/
theorem fitWLS_collinear (a b : ℚ) (pts : List (ℚ × ℚ)) (wf : ℚ × ℚ → ℚ)
    (x0 y0 : ℚ) (hlin : ∀ p ∈ pts, p.2 = a * p.1 + b) (hy0 : y0 = a * x0 + b) :
    fitWLS pts wf x0 y0 = a * x0 + b := by
  have hT0 : (pts.map (fun p => wf p * p.2)).sum
      = a * (pts.map (fun p => wf p * p.1)).sum
        + b * (pts.map (fun p => wf p)).sum :=
    sum_weighted_collinear a b pts wf hlin
  have hT1 : (pts.map (fun p => wf p * p.1 * p.2)).sum
      = a * (pts.map (fun p => wf p * p.1 * p.1)).sum
        + b * (pts.map (fun p => wf p * p.1)).sum :=
    sum_weighted_collinear a b pts (fun p => wf p * p.1) hlin
  simp only [fitWLS]
  by_cases hdet : (pts.map (fun p => wf p)).sum * (pts.map (fun p => wf p * p.1 * p.1)).sum
      - (pts.map (fun p => wf p * p.1)).sum * (pts.map (fun p => wf p * p.1)).sum = 0
  · rw [if_pos hdet]
    exact hy0
  · rw [if_neg hdet, hT0, hT1, div_eq_iff hdet]
    ring

/-! ## DataFrame state and `plot_by_polviews`

The dataset is a pandas `DataFrame`: an ordered association of column
names to columns.  `df[name] = col` overwrites an existing column in
place or appends a new one at the end; `df[name]` raises `KeyError`
(embedded as `none`) when the column is absent. -/

/-- A DataFrame: named columns in order. -/
abbrev DataFrame := List (String × Column)

/-- `df[name]`: the column, or `none` for pandas' `KeyError`. -/
def getCol (df : DataFrame) (name : String) : Option Column :=
  df.lookup name

/-- `df[name] = col`: overwrite in place, or append a new column. -/
def setCol : DataFrame → String → Column → DataFrame
  | [], n, c => [(n, c)]
  | (m, d) :: t, n, c =>
      if m = n then (m, c) :: t else (m, d) :: setCol t n c

theorem getCol_setCol (df : DataFrame) (n : String) (c : Column) (m : String) :
    getCol (setCol df n c) m = if m = n then some c else getCol df m := by
  induction df with
  | nil =>
      by_cases h : m = n
      · simp [getCol, setCol, List.lookup, h]
      · have hb : (m == n) = false := beq_eq_false_iff_ne.mpr h
        simp [getCol, setCol, List.lookup, hb, h]
  | cons kd t ih =>
      obtain ⟨k, d⟩ := kd
      by_cases hk : k = n
      · by_cases hm : m = k
        · have hb : (m == k) = true := by simp [hm]
          have hmn : m = n := hm.trans hk
          simp [getCol, setCol, List.lookup, hk, hb, hmn]
        · have hb : (m == k) = false := beq_eq_false_iff_ne.mpr hm
          have hmn : m ≠ n := fun he => hm (he.trans hk.symm)
          have hbn : (m == n) = false := beq_eq_false_iff_ne.mpr hmn
          simp [getCol, setCol, List.lookup, hk, hb, hbn, hmn]
      · by_cases hm : m = k
        · have hb : (m == k) = true := by simp [hm]
          have hmn : m ≠ n := fun he => hk (hm.symm.trans he)
          simp [getCol, setCol, List.lookup, hk, hb, hmn]
        · have hb : (m == k) = false := beq_eq_false_iff_ne.mpr hm
          simp only [getCol, setCol, if_neg hk, List.lookup, hb] at ih ⊢
          exact ih

/-- `plot_by_polviews(gss, varname)` (04_worldview): the data-flow of the
source function.  It assigns `gss['polviews3']` and `gss['recoded']` on
the frame it is given, then derives a pivot table and plots it (the
plotting and the derived table read but do not further change the frame).
The dict `d_recode` is a parameter: the cell defining it in
04_worldview is an unfilled exercise cell.  A missing column is pandas'
`KeyError`, embedded as `none`. -/
def plot_by_polviews (gss : DataFrame) (varname : String)
    (d_recode : List (GVal × GVal)) : Option DataFrame :=
  match getCol gss "polviews" with
  | none => none
  | some pv =>
      let gss1 := setCol gss "polviews3" (replace d_polviews pv)
      match getCol gss1 varname with
      | none => none
      | some column => some (setCol gss1 "recoded" (replace d_recode column))

/-! ## Claim theorems -/

/-- C1 (counterexample): the claim — every output of the Recoder is either
`m[c[i]]` or missing, and an output is missing iff the input is missing or
absent from `m` — is false: `pandas.Series.replace` keeps a code absent
from the mapping unchanged.  With `m = {1 ↦ "Liberal"}` and `c = [8]`,
the output at index 0 is the raw code `8`, not the missing marker. -/
theorem recoder_claim_counterexample :
    ¬ (∀ (m : List (GVal × GVal)) (c : Column) (i : ℕ)
         (hi : i < c.length) (hi2 : i < (replace m c).length),
         ((∃ x t, c.get ⟨i, hi⟩ = some x ∧ m.lookup x = some t
             ∧ (replace m c).get ⟨i, hi2⟩ = some t)
           ∨ (replace m c).get ⟨i, hi2⟩ = none)
         ∧ ((replace m c).get ⟨i, hi2⟩ = none ↔
              (c.get ⟨i, hi⟩ = none
                ∨ ∃ x, c.get ⟨i, hi⟩ = some x ∧ m.lookup x = none))) := by
  intro h
  have h8 := h [(GVal.num 1, GVal.str "Liberal")] [some (GVal.num 8)] 0
    (by decide) (by decide)
  have habsent : (([some (GVal.num 8)] : Column).get ⟨0, by decide⟩ = none
      ∨ ∃ x, ([some (GVal.num 8)] : Column).get ⟨0, by decide⟩ = some x
          ∧ ([(GVal.num 1, GVal.str "Liberal")] : List (GVal × GVal)).lookup x = none) :=
    Or.inr ⟨GVal.num 8, by decide, by decide⟩
  exact absurd (h8.2.mpr habsent) (by decide)

/-- C1 (amended): `series.replace(d)` maps each value elementwise; a value
that is a key of `m` becomes its image, any other value passes through
unchanged, and an output value is missing iff the input value is missing. -/
theorem replace_passthrough (m : List (GVal × GVal)) (c : Column) :
    (replace m c).length = c.length
    ∧ (∀ i (hi : i < c.length) (hi2 : i < (replace m c).length),
        (replace m c).get ⟨i, hi2⟩ = recodeVal m (c.get ⟨i, hi⟩))
    ∧ (∀ v : Option GVal, recodeVal m v = none ↔ v = none)
    ∧ (∀ x : GVal, recodeVal m (some x) = some ((m.lookup x).getD x)) := by
  refine ⟨List.length_map c _, ?_, ?_, ?_⟩
  · intro i hi hi2
    simp [replace]
  · intro v
    cases v <;> simp [recodeVal]
  · intro x
    rfl

/-- C1 (witness): the amended theorem at `d7` and a concrete column. -/
theorem replace_passthrough_witness :
    (replace d7 [some (GVal.num 3), none, some (GVal.num 9)]).get ⟨0, by decide⟩
      = recodeVal d7 (([some (GVal.num 3), none, some (GVal.num 9)] : Column).get ⟨0, by decide⟩) :=
  (replace_passthrough d7 [some (GVal.num 3), none, some (GVal.num 9)]).2.1 0
    (by decide) (by decide)

/-- C2: smoothing a series with fewer than 2 distinct x-values fails
explicitly with `InsufficientDataError` (smoother modelled from the spec:
the `lowess` routine is the external statsmodels library). -/
theorem make_lowess_insufficient_data (series : List (ℚ × ℚ))
    (h : (series.map Prod.fst).dedup.length < 2) :
    make_lowess series = Except.error InsufficientDataError.insufficientData := by
  have hperm :
      (((List.insertionSort (fun p q : ℚ × ℚ => p.1 ≤ q.1) series).map Prod.fst).dedup).Perm
        ((series.map Prod.fst).dedup) :=
    ((List.perm_insertionSort _ series).map Prod.fst).dedup
  have hlen :
      ((List.insertionSort (fun p q : ℚ × ℚ => p.1 ≤ q.1) series).map Prod.fst).dedup.length < 2 := by
    rw [hperm.length_eq]
    exact h
  simp only [make_lowess]
  rw [if_pos hlen]

/-- C2 (witness): two points sharing one x-value. -/
theorem make_lowess_insufficient_data_witness :
    make_lowess [((1 : ℚ), (5 : ℚ)), (1, 7)]
      = Except.error InsufficientDataError.insufficientData :=
  make_lowess_insufficient_data [(1, 5), (1, 7)] (by decide)

/-- C3: for a sequence with at least one non-missing value the PMF of
`Pmf.from_seq` has non-negative probabilities summing exactly to 1 (hence
within `1e-9`); an all-missing or empty sequence gives the empty mapping. -/
theorem from_seq_pmf_normalized (seq : List (Option ℚ)) :
    (seq.filterMap id ≠ [] →
      (∀ p ∈ Pmf.from_seq seq, 0 ≤ p.2)
      ∧ ((Pmf.from_seq seq).map Prod.snd).sum = 1
      ∧ |((Pmf.from_seq seq).map Prod.snd).sum - 1| ≤ 1 / 1000000000)
    ∧ (seq.filterMap id = [] → Pmf.from_seq seq = []) := by
  constructor
  · intro hne
    have hnonneg : ∀ p ∈ Pmf.from_seq seq, 0 ≤ p.2 := by
      intro p hp
      simp only [Pmf.from_seq, List.mem_map] at hp
      obtain ⟨v, hv, he⟩ := hp
      rw [← he]
      exact div_nonneg (Nat.cast_nonneg _) (Nat.cast_nonneg _)
    have hcount :
        ((sortDedup (seq.filterMap id)).map (fun v => cnt v (seq.filterMap id))).sum
          = (seq.filterMap id).length := by
      exact sum_filter_length_partition (sortDedup (seq.filterMap id)) (fun a => a)
        (seq.filterMap id) (sortDedup_nodup _) (fun a ha => mem_sortDedup.mpr ha)
    have hlen0 : ((seq.filterMap id).length : ℚ) ≠ 0 := by
      have : 0 < (seq.filterMap id).length := List.length_pos.mpr hne
      exact_mod_cast Nat.pos_iff_ne_zero.mp this
    have hsum : ((Pmf.from_seq seq).map Prod.snd).sum = 1 := by
      simp only [Pmf.from_seq, List.map_map]
      have hcomp :
          (Prod.snd ∘ fun v => (v, (cnt v (seq.filterMap id) : ℚ) / ((seq.filterMap id).length : ℚ)))
            = fun v => (cnt v (seq.filterMap id) : ℚ) / ((seq.filterMap id).length : ℚ) := rfl
      rw [hcomp]
      have hmm :
          ((sortDedup (seq.filterMap id)).map
              (fun v => (cnt v (seq.filterMap id) : ℚ) / ((seq.filterMap id).length : ℚ)))
            = (((sortDedup (seq.filterMap id)).map
                (fun v => (cnt v (seq.filterMap id) : ℚ))).map
                  (fun n => n / ((seq.filterMap id).length : ℚ))) := by
        rw [List.map_map]
        rfl
      rw [hmm, sum_map_div, sum_map_natCast, hcount, div_self hlen0]
    refine ⟨hnonneg, hsum, ?_⟩
    rw [hsum]
    norm_num
  · intro hempty
    simp [Pmf.from_seq, hempty, sortDedup]

/-- C3 (witness): a sequence with two non-missing values and one missing. -/
theorem from_seq_pmf_normalized_witness :
    ((Pmf.from_seq [some 1, none, some 2]).map Prod.snd).sum = 1 :=
  ((from_seq_pmf_normalized [some 1, none, some 2]).1 (by decide)).2.1

/-- C9: end-to-end scenario on the rows
`[(1974,1),(1974,2),(1974,2),(2018,4),(2018,4),(2018,6)]`: the PMF of the
1974 subset is `{1 ↦ 1/3, 2 ↦ 2/3}` and the per-year means are
`{1974 ↦ 5/3, 2018 ↦ 14/3}`. -/
theorem end_to_end_scenario :
    Pmf.from_seq ((([((1974 : ℤ), some (1 : ℚ)), (1974, some 2), (1974, some 2),
        (2018, some 4), (2018, some 4), (2018, some 6)]).filter
          (fun r => r.1 = 1974)).map Prod.snd)
      = [(1, 1 / 3), (2, 2 / 3)]
    ∧ groupbyMean [((1974 : ℤ), some (1 : ℚ)), (1974, some 2), (1974, some 2),
        (2018, some 4), (2018, some 4), (2018, some 6)]
      = [(1974, some (5 / 3)), (2018, some (14 / 3))] := by
  constructor
  · with_unfolding_all decide
  · with_unfolding_all decide

/-- C4: in `pd.crosstab(..., normalize="index")` every row whose underlying
count row has nonzero sum normalizes to values summing exactly to 1 (hence
within `1e-9`), and a zero-sum count row normalizes to a row of missing
markers (`0 / 0` is `NaN`), never a division failure. -/
theorem crosstab_row_normalize {A B : Type} [LinearOrder A] [LinearOrder B]
    [DecidableEq A] [DecidableEq B]
    (ys : List (Option A)) (vs : List (Option B)) :
    (∀ (r : A) (row : List (Option ℚ)), (r, row) ∈ crosstabNorm ys vs →
      (((colKeys ys vs).map (fun c => (cellCount (keptPairs ys vs) r c : ℚ))).sum ≠ 0 →
        (row.filterMap id).sum = 1 ∧ |(row.filterMap id).sum - 1| ≤ 1 / 1000000000)
      ∧ (((colKeys ys vs).map (fun c => (cellCount (keptPairs ys vs) r c : ℚ))).sum = 0 →
        ∀ e ∈ row, e = none))
    ∧ (∀ counts : List ℚ, counts.sum = 0 → ∀ e ∈ normalizeRow counts, e = none) := by
  have hzero : ∀ counts : List ℚ, counts.sum = 0 → ∀ e ∈ normalizeRow counts, e = none := by
    intro counts hs e he
    rw [normalizeRow, if_pos hs] at he
    rcases List.mem_map.mp he with ⟨n, _, he2⟩
    exact he2.symm
  refine ⟨?_, hzero⟩
  intro r row hmem
  simp only [crosstabNorm, List.mem_map] at hmem
  obtain ⟨r2, hr2, he⟩ := hmem
  have hre : r2 = r := congrArg Prod.fst he
  have hrow : row
      = normalizeRow ((colKeys ys vs).map (fun c => (cellCount (keptPairs ys vs) r c : ℚ))) := by
    have := congrArg Prod.snd he
    simp only at this
    rw [← this, hre]
  constructor
  · intro hs
    have hrow2 : row
        = ((colKeys ys vs).map (fun c => (cellCount (keptPairs ys vs) r c : ℚ))).map
            (fun n => some (n /
              ((colKeys ys vs).map (fun c => (cellCount (keptPairs ys vs) r c : ℚ))).sum)) := by
      rw [hrow, normalizeRow, if_neg hs]
    have hsum : (row.filterMap id).sum = 1 := by
      rw [hrow2, filterMap_id_map_some, sum_map_div, div_self hs]
    refine ⟨hsum, ?_⟩
    rw [hsum]
    norm_num
  · intro hs e he
    exact hzero _ hs e (hrow ▸ he)

/-- C4 (witness): the spec's §8 cross-tab scenario, 1974 row. -/
theorem crosstab_row_normalize_witness :
    (([some ((1 : ℚ) / 2), some (1 / 2)] : List (Option ℚ)).filterMap id).sum = 1
    ∧ |(([some ((1 : ℚ) / 2), some (1 / 2)] : List (Option ℚ)).filterMap id).sum - 1|
        ≤ 1 / 1000000000 :=
  ((crosstab_row_normalize [some ((1974 : ℤ)), some 1974, some 2018]
      [some ((1 : ℚ)), some 2, some 1]).1 1974 [some (1 / 2), some (1 / 2)]
      (by with_unfolding_all decide)).1 (by with_unfolding_all decide)

/-- C10 (implicit): a crosstab row for `r` exists iff some kept pair
(both components non-missing) has first component `r`; consequently every
count row of the produced table has strictly positive sum, so the
zero-sum row case never occurs at the interface. -/
theorem crosstab_rows_nonzero {A B : Type} [LinearOrder A] [LinearOrder B]
    [DecidableEq A] [DecidableEq B]
    (ys : List (Option A)) (vs : List (Option B)) :
    (∀ r : A, r ∈ rowKeys ys vs ↔ ∃ c, (r, c) ∈ keptPairs ys vs)
    ∧ (∀ (r : A) (row : List ℕ), (r, row) ∈ crosstab ys vs → 0 < row.sum) := by
  have hmemiff : ∀ r : A, r ∈ rowKeys ys vs ↔ ∃ c, (r, c) ∈ keptPairs ys vs := by
    intro r
    rw [rowKeys, mem_sortDedup, List.mem_map]
    constructor
    · rintro ⟨⟨p1, p2⟩, hp, he⟩
      simp only at he
      subst he
      exact ⟨p2, hp⟩
    · rintro ⟨c, hc⟩
      exact ⟨(r, c), hc, rfl⟩
  refine ⟨hmemiff, ?_⟩
  intro r row hmem
  simp only [crosstab, List.mem_map] at hmem
  obtain ⟨r2, hr2, he⟩ := hmem
  have hre : r2 = r := congrArg Prod.fst he
  have hrow : row = (colKeys ys vs).map (fun c => cellCount (keptPairs ys vs) r c) := by
    have := congrArg Prod.snd he
    simp only at this
    rw [← this, hre]
  rw [hrow, crosstab_row_total]
  rw [hre] at hr2
  obtain ⟨c, hc⟩ := (hmemiff r).mp hr2
  have : (r, c) ∈ (keptPairs ys vs).filter (fun p => p.1 = r) :=
    List.mem_filter.mpr ⟨hc, by simp⟩
  exact List.length_pos.mpr (List.ne_nil_of_mem this)

/-- C10 (witness): one kept pair, one dropped on each side. -/
theorem crosstab_rows_nonzero_witness :
    0 < ([1] : List ℕ).sum :=
  (crosstab_rows_nonzero [some ((1974 : ℤ)), some 1974, none]
      [some ((1 : ℚ)), none, some 2]).2 1974 [1] (by decide)

/-- C5: the Grouped Aggregator's per-group non-missing counts sum to the
total non-missing count; each per-group mean lies within the min and max
of the group's non-missing values and equals the mean of exactly those
values; a group's mean is the missing marker iff it has no non-missing
value.  Missing values are excluded from both the mean and the
standard-deviation aggregate rather than treated as zero: adding a
missing observation changes neither aggregate, the standard-deviation
aggregate is computed from exactly the group's non-missing values (with
the unbiased `n − 1` denominator) and is non-negative, and it is the
missing marker iff the group has fewer than two non-missing values. -/
theorem grouped_aggregator_invariants {K : Type} [LinearOrder K] [DecidableEq K]
    (rows : List (K × Option ℚ)) :
    ((groupKeys rows).map (fun y => (groupVals rows y).length)).sum
      = (rows.filterMap Prod.snd).length
    ∧ (∀ (y : K) (μ : ℚ), (y, some μ) ∈ groupbyMean rows →
        listMin (groupVals rows y) ≤ μ ∧ μ ≤ listMax (groupVals rows y)
        ∧ μ = (groupVals rows y).sum / ((groupVals rows y).length : ℚ))
    ∧ (∀ y : K, (y, (none : Option ℚ)) ∈ groupbyMean rows → groupVals rows y = [])
    ∧ (∀ z y : K, groupMean ((z, (none : Option ℚ)) :: rows) y = groupMean rows y
        ∧ groupStdSq ((z, (none : Option ℚ)) :: rows) y = groupStdSq rows y)
    ∧ (∀ (y : K) (q : ℚ), groupStdSq rows y = some q →
        0 ≤ q
        ∧ q = ((groupVals rows y).map
            (fun v => (v - (groupVals rows y).sum / ((groupVals rows y).length : ℚ)) ^ 2)).sum
            / (((groupVals rows y).length : ℚ) - 1))
    ∧ (∀ y : K, groupStdSq rows y = none ↔ (groupVals rows y).length < 2) := by
  refine ⟨sum_group_counts rows, ?_, ?_, ?_, ?_, ?_⟩
  · intro y μ hmem
    simp only [groupbyMean, List.mem_map] at hmem
    obtain ⟨y2, hy2, he⟩ := hmem
    have hye : y2 = y := congrArg Prod.fst he
    have hμ : groupMean rows y = some μ := by
      have := congrArg Prod.snd he
      simp only at this
      rw [← this, hye]
    by_cases hnil : groupVals rows y = []
    · rw [groupMean, if_pos hnil] at hμ
      exact absurd hμ (by simp)
    · rw [groupMean, if_neg hnil] at hμ
      have hμ2 : μ = (groupVals rows y).sum / ((groupVals rows y).length : ℚ) :=
        (Option.some_inj.mp hμ).symm
      have hb := mean_between hnil
      exact ⟨hμ2 ▸ hb.1, hμ2 ▸ hb.2, hμ2⟩
  · intro y hmem
    simp only [groupbyMean, List.mem_map] at hmem
    obtain ⟨y2, hy2, he⟩ := hmem
    have hye : y2 = y := congrArg Prod.fst he
    have hμ : groupMean rows y = none := by
      have := congrArg Prod.snd he
      simp only at this
      rw [← this, hye]
    by_cases hnil : groupVals rows y = []
    · exact hnil
    · rw [groupMean, if_neg hnil] at hμ
      exact absurd hμ (by simp)
  · intro z y
    refine ⟨?_, ?_⟩ <;> simp only [groupMean, groupStdSq, groupVals_cons_none]
  · intro y q hq
    simp only [groupStdSq] at hq
    by_cases hlen : (groupVals rows y).length < 2
    · rw [if_pos hlen] at hq
      exact absurd hq (by simp)
    · rw [if_neg hlen] at hq
      have hqe := (Option.some_inj.mp hq).symm
      refine ⟨?_, hqe⟩
      have hnum : 0 ≤ ((groupVals rows y).map
          (fun v => (v - (groupVals rows y).sum / ((groupVals rows y).length : ℚ)) ^ 2)).sum := by
        apply List.sum_nonneg
        intro x hx
        rcases List.mem_map.mp hx with ⟨v, _, he⟩
        rw [← he]
        exact sq_nonneg _
      have hden : 0 ≤ ((groupVals rows y).length : ℚ) - 1 := by
        have h2 : 2 ≤ (groupVals rows y).length := Nat.le_of_not_lt hlen
        have h3 : (2 : ℚ) ≤ ((groupVals rows y).length : ℚ) := by exact_mod_cast h2
        linarith
      rw [hqe]
      exact div_nonneg hnum hden
  · intro y
    simp only [groupStdSq]
    by_cases hlen : (groupVals rows y).length < 2
    · simp [hlen]
    · simp [hlen]

/-- The three observations of the C5 witness group: two non-missing, one
missing. -/
def rows5 : List (ℤ × Option ℚ) :=
  [(2018, some 4), (2018, none), (2018, some 6)]

/-- C5 (witness): a group with a missing value among its observations: the
mean bounds hold, a prepended missing observation changes neither the mean
nor the standard-deviation aggregate, and the aggregate is non-negative. -/
theorem grouped_aggregator_invariants_witness :
    (listMin (groupVals rows5 2018) ≤ 5
      ∧ (5 : ℚ) ≤ listMax (groupVals rows5 2018)
      ∧ (5 : ℚ) = (groupVals rows5 2018).sum / ((groupVals rows5 2018).length : ℚ))
    ∧ (groupMean ((2018, (none : Option ℚ)) :: rows5) 2018 = groupMean rows5 2018
      ∧ groupStdSq ((2018, (none : Option ℚ)) :: rows5) 2018 = groupStdSq rows5 2018)
    ∧ 0 ≤ (2 : ℚ) :=
  ⟨(grouped_aggregator_invariants rows5).2.1 2018 5 (by with_unfolding_all decide),
   (grouped_aggregator_invariants rows5).2.2.2.1 2018 2018,
   ((grouped_aggregator_invariants rows5).2.2.2.2.1 2018 2
      (by with_unfolding_all decide)).1⟩

/-- A one-respondent frame for exercising `plot_by_polviews`. -/
def gss0 : DataFrame :=
  [("year", [some (GVal.num 1974)]), ("polviews", [some (GVal.num 1)])]

/-- The frame produced by `plot_by_polviews gss0 "polviews" []`. -/
def gss0after : DataFrame :=
  [("year", [some (GVal.num 1974)]), ("polviews", [some (GVal.num 1)]),
   ("polviews3", [some (GVal.str "Liberal")]), ("recoded", [some (GVal.num 1)])]

/-- C6 (counterexample): the claim — every pipeline component is pure and
`plot_by_polviews` leaves the dataset it is given unchanged — is false:
the source assigns `gss['polviews3']` and `gss['recoded']` on the frame it
is given, so the frame gains two columns. -/
theorem plot_by_polviews_mutates_counterexample :
    ¬ (∀ (gss : DataFrame) (varname : String) (d_recode : List (GVal × GVal)),
        plot_by_polviews gss varname d_recode = none
        ∨ plot_by_polviews gss varname d_recode = some gss) := by
  intro h
  rcases h gss0 "polviews" [] with h1 | h2
  · exact absurd h1 (by decide)
  · exact absurd h2 (by decide)

/-- C6 (amended): `plot_by_polviews` does mutate the frame it is given —
it assigns the derived columns `polviews3` and `recoded` — but every
other column is left unchanged, and the remaining pipeline components are
pure functions of their inputs. -/
theorem plot_by_polviews_other_columns (gss : DataFrame) (varname : String)
    (d_recode : List (GVal × GVal)) (gss2 : DataFrame)
    (h : plot_by_polviews gss varname d_recode = some gss2)
    (name : String) (h3 : name ≠ "polviews3") (h4 : name ≠ "recoded") :
    getCol gss2 name = getCol gss name := by
  unfold plot_by_polviews at h
  cases hpv : getCol gss "polviews" with
  | none =>
      rw [hpv] at h
      exact absurd h (by simp)
  | some pv =>
      rw [hpv] at h
      simp only at h
      cases hvc : getCol (setCol gss "polviews3" (replace d_polviews pv)) varname with
      | none =>
          rw [hvc] at h
          exact absurd h (by simp)
      | some column =>
          rw [hvc] at h
          simp only [Option.some_inj] at h
          rw [← h, getCol_setCol, if_neg h4, getCol_setCol, if_neg h3]

/-- C6 (witness): the amended theorem at the concrete frame: the `year`
column survives `plot_by_polviews` unchanged. -/
theorem plot_by_polviews_other_columns_witness :
    getCol gss0after "year" = getCol gss0 "year" :=
  plot_by_polviews_other_columns gss0 "polviews" [] gss0after (by decide)
    "year" (by decide) (by decide)

/-- C7: on exactly linear data sorted by strictly increasing x the smoother
returns the line: `make_lowess` succeeds and its output is `a*x + b` at
every evaluation point, exactly (hence within any tolerance). -/
theorem make_lowess_linear_exact (a b : ℚ) (pts : List (ℚ × ℚ))
    (hsorted : pts.Pairwise (fun p q => p.1 < q.1))
    (hlen : 2 ≤ pts.length)
    (hlin : ∀ p ∈ pts, p.2 = a * p.1 + b) :
    make_lowess pts = Except.ok (pts.map (fun p => (p.1, a * p.1 + b))) := by
  have hsle : List.Sorted (fun p q : ℚ × ℚ => p.1 ≤ q.1) pts :=
    hsorted.imp (fun h => le_of_lt h)
  have hsort_eq : List.insertionSort (fun p q : ℚ × ℚ => p.1 ≤ q.1) pts = pts :=
    hsle.insertionSort_eq
  have hnd : (pts.map Prod.fst).Nodup :=
    List.Pairwise.map Prod.fst (fun a b h => ne_of_lt h) hsorted
  have hdedup : (pts.map Prod.fst).dedup = pts.map Prod.fst :=
    List.dedup_eq_self.mpr hnd
  have hnotlt : ¬ ((pts.map Prod.fst).dedup.length < 2) := by
    rw [hdedup, List.length_map]
    omega
  simp only [make_lowess, hsort_eq]
  rw [if_neg hnotlt]
  congr 1
  apply List.map_congr_left
  intro p hp
  have hfit : fitAt pts p.1 p.2 = a * p.1 + b :=
    fitWLS_collinear a b pts (tricubeWeight p.1 (dmaxAt pts p.1)) p.1 p.2 hlin (hlin p hp)
  rw [hfit]

/-- C7 (witness): three points on the line `y = 2x + 1`. -/
theorem make_lowess_linear_exact_witness :
    make_lowess [((0 : ℚ), (1 : ℚ)), (1, 3), (2, 5)]
      = Except.ok ([((0 : ℚ), (1 : ℚ)), (1, 3), (2, 5)].map (fun p => (p.1, 2 * p.1 + 1))) :=
  make_lowess_linear_exact 2 1 [(0, 1), (1, 3), (2, 5)] (by decide) (by decide)
    (by with_unfolding_all decide)

/-- The Distribution Estimator is invariant under permutation of its
input. -/
theorem from_seq_perm {seq seq' : List (Option ℚ)} (h : seq.Perm seq') :
    Pmf.from_seq seq = Pmf.from_seq seq' := by
  have hv : (seq.filterMap id).Perm (seq'.filterMap id) := h.filterMap id
  simp only [Pmf.from_seq]
  rw [sortDedup_perm_eq hv, hv.length_eq]
  apply List.map_congr_left
  intro v _
  have hc : cnt v (seq.filterMap id) = cnt v (seq'.filterMap id) :=
    (hv.filter (fun x => x = v)).length_eq
  rw [hc]

/-- `values` is invariant under permutation of its input. -/
theorem values_perm {seq seq' : List (Option ℚ)} (h : seq.Perm seq') :
    values seq = values seq' := by
  have hv : (seq.filterMap id).Perm (seq'.filterMap id) := h.filterMap id
  simp only [values]
  rw [sortDedup_perm_eq hv]
  apply List.map_congr_left
  intro v _
  have hc : cnt v (seq.filterMap id) = cnt v (seq'.filterMap id) :=
    (hv.filter (fun x => x = v)).length_eq
  rw [hc]

/-- The per-group mean is invariant under permutation of the rows. -/
theorem groupMean_perm {K : Type} [DecidableEq K]
    {rows rows' : List (K × Option ℚ)} (h : rows.Perm rows') (y : K) :
    groupMean rows y = groupMean rows' y := by
  have hvals : (groupVals rows y).Perm (groupVals rows' y) := by
    unfold groupVals
    exact (h.filter _).filterMap Prod.snd
  by_cases hnil : groupVals rows y = []
  · have hnil2 : groupVals rows' y = [] := (hnil ▸ hvals).symm.eq_nil
    rw [groupMean, groupMean, if_pos hnil, if_pos hnil2]
  · have hnil2 : groupVals rows' y ≠ [] := fun h2 => hnil ((h2 ▸ hvals).eq_nil)
    rw [groupMean, groupMean, if_neg hnil, if_neg hnil2, hvals.sum_eq, hvals.length_eq]

/-- C8: the Grouped Aggregator and the Distribution Estimator are
invariant under permutation of the input rows, and both iterate their
keys in strictly ascending order: output order never depends on input row
order. -/
theorem sorted_deterministic_order {K : Type} [LinearOrder K] [DecidableEq K]
    (rows rows' : List (K × Option ℚ)) (seq seq' : List (Option ℚ))
    (hrows : rows.Perm rows') (hseq : seq.Perm seq') :
    groupbyMean rows = groupbyMean rows'
    ∧ List.Sorted (· < ·) ((groupbyMean rows).map Prod.fst)
    ∧ Pmf.from_seq seq = Pmf.from_seq seq'
    ∧ List.Sorted (· < ·) ((Pmf.from_seq seq).map Prod.fst)
    ∧ values seq = values seq'
    ∧ List.Sorted (· < ·) ((values seq).map Prod.fst) := by
  have hkeys : groupKeys rows = groupKeys rows' :=
    sortDedup_perm_eq (hrows.map Prod.fst)
  refine ⟨?_, ?_, from_seq_perm hseq, ?_, values_perm hseq, ?_⟩
  · rw [groupbyMean, groupbyMean, hkeys]
    apply List.map_congr_left
    intro y _
    rw [groupMean_perm hrows y]
  · have hmap : (groupbyMean rows).map Prod.fst = groupKeys rows := by
      rw [groupbyMean, List.map_map]
      exact List.map_id (groupKeys rows)
    rw [hmap]
    exact sortDedup_sorted_lt _
  · have hmap : (Pmf.from_seq seq).map Prod.fst = sortDedup (seq.filterMap id) := by
      rw [Pmf.from_seq, List.map_map]
      exact List.map_id _
    rw [hmap]
    exact sortDedup_sorted_lt _
  · have hmap : (values seq).map Prod.fst = sortDedup (seq.filterMap id) := by
      rw [values, List.map_map]
      exact List.map_id _
    rw [hmap]
    exact sortDedup_sorted_lt _

/-- C8 (witness): a transposition of the rows and of the sequence. -/
theorem sorted_deterministic_order_witness :
    groupbyMean [((2018 : ℤ), some (4 : ℚ)), (1974, some 1)]
      = groupbyMean [((1974 : ℤ), some (1 : ℚ)), (2018, some 4)]
    ∧ List.Sorted (· < ·)
        ((groupbyMean [((2018 : ℤ), some (4 : ℚ)), (1974, some 1)]).map Prod.fst)
    ∧ Pmf.from_seq [some (2 : ℚ), some 1] = Pmf.from_seq [some (1 : ℚ), some 2]
    ∧ List.Sorted (· < ·) ((Pmf.from_seq [some (2 : ℚ), some 1]).map Prod.fst)
    ∧ values [some (2 : ℚ), some 1] = values [some (1 : ℚ), some 2]
    ∧ List.Sorted (· < ·) ((values [some (2 : ℚ), some 1]).map Prod.fst) :=
  sorted_deterministic_order [((2018 : ℤ), some (4 : ℚ)), (1974, some 1)]
    [((1974 : ℤ), some (1 : ℚ)), (2018, some 4)]
    [some (2 : ℚ), some 1] [some (1 : ℚ), some 2]
    (List.Perm.swap _ _ _) (List.Perm.swap _ _ _)

end PACS
